import Mathlib

/-! # Shallow embedding of ConcurrentHashTable (src/ConcurrentHashTable.h)

The C++ class template ConcurrentHashTable keeps an array `_items` of
`_capacity` bucket-chain heads, counters `_size` and `_capacity`, the float
parameters `_max_load_factor`, `_capacity_step` and `_lock_factor`, a deque
of per-item mutexes, one global mutex and a `_rehashing` flag.

This development models the single-threaded behaviour of the public
operations.  A bucket chain becomes a `List (K × V)` in chain order (head
first); the bucket array becomes a list of chains; float arithmetic on the
small quantities involved is modelled exactly over the rationals; the mutex
deque is modelled by its length, the only part of it that sequential code
observes; lock acquisition and release are sequential no-ops and are not
modelled.  `at` (here `tAt`, since `at` is a Lean keyword) returns
`Option V`, with `none` standing for the thrown `std::out_of_range`
("Key not found"). -/

set_option linter.unusedSectionVars false

namespace CHT

/-- Table state, mirroring the data members of ConcurrentHashTable
(src/ConcurrentHashTable.h lines 52-60).  `items` is `_items` (the array of
`_capacity` chain heads), `num_mutexes` is `_items_mutexes.size()` and
`hash` is `std::hash<KeyType>`. -/
structure Table (K V : Type) where
  items : List (List (K × V))
  size : Nat
  capacity : Nat
  max_load_factor : ℚ
  capacity_step : ℚ
  lock_factor : ℚ
  num_mutexes : Nat
  hash : K → Nat

variable {K V : Type} [DecidableEq K]

/-- Constructor (lines 74-89): allocate `capacity` null chain heads and
start with a single item mutex. -/
def mkTable (capacity : Nat) (max_load_factor capacity_step lock_factor : ℚ)
    (hash : K → Nat) : Table K V :=
  { items := List.replicate capacity []
    size := 0
    capacity := capacity
    max_load_factor := max_load_factor
    capacity_step := capacity_step
    lock_factor := lock_factor
    num_mutexes := 1
    hash := hash }

/-- The read side of the chain walk of get_item (lines 249-280): the value
of the first entry whose `_key == key`, `none` if the walk falls off the
chain. -/
def findVal : List (K × V) → K → Option V
  | [], _ => none
  | e :: rest, k => if e.1 = k then some e.2 else findVal rest k

/-- Effect on a chain of `(*item)->_val = val` after a successful get_item
(insert, line 163): the first entry carrying the key gets the new value;
its key object is not replaced. -/
def updateVal : List (K × V) → K → V → List (K × V)
  | [], _, _ => []
  | e :: rest, k, v => if e.1 = k then (e.1, v) :: rest else e :: updateVal rest k v

/-- Net effect on a chain of erase's unlink sequence (lines 185-196) when
the key is found.  In the source, `item` aliases the link that points at
the found entry: `&_items[idx]` when the entry is the chain head, and
`&prev_item->_next` otherwise.  With a predecessor, the assignment
`prev_item->_next = (*item)->_next` therefore rewrites `*item` itself, so
the following `delete *item; *item = nullptr` frees the found entry's
successor and sets the predecessor's link to null; without a predecessor,
`*item = nullptr` nulls the bucket slot.  Either way the chain that remains
reachable is the prefix strictly before the first matching entry. -/
def truncFrom : List (K × V) → K → List (K × V)
  | [], _ => []
  | e :: rest, k => if e.1 = k then [] else e :: truncFrom rest k

/-- `hash_func(key) % _capacity` (line 258). -/
def bucketIdx (t : Table K V) (k : K) : Nat := t.hash k % t.capacity

/-- The chain stored in the bucket that the key hashes to (line 260). -/
def bucketChain (t : Table K V) (k : K) : List (K × V) :=
  t.items.getD (bucketIdx t k) []

/-- `at` (lines 116-129): the value of the entry found by get_item; `none`
models the thrown `std::out_of_range("Key not found")`. -/
def tAt (t : Table K V) (k : K) : Option V := findVal (bucketChain t k) k

/-- `contains` (lines 107-112): the found flag of the same get_item walk
that `at` performs. -/
def contains (t : Table K V) (k : K) : Bool := (tAt t k).isSome

/-- The quotient `_size / _lock_factor` of try_add_mutex (line 332) as an
exact rational.  Writing the lock factor as `num / den`, the quotient is
`(_size * den) / num`; `Rat.divInt` is used because it evaluates by kernel
reduction.  `mutexQuota_eq_div` below shows this is the plain rational
division. -/
def mutexQuota (t : Table K V) : ℚ :=
  Rat.divInt ((t.size * t.lock_factor.den : Nat) : Int) t.lock_factor.num

/-- try_add_mutex (lines 329-334): append one mutex to `_items_mutexes`
when `_size / _lock_factor >= _items_mutexes.size()`. -/
def try_add_mutex (t : Table K V) : Table K V :=
  if (t.num_mutexes : ℚ) ≤ mutexQuota t then
    { t with num_mutexes := t.num_mutexes + 1 }
  else t

/-- The body of insert (lines 144-165), from the get_item call onwards:
update the found entry in place, or else increment `_size`, possibly add a
mutex, and link a fresh entry at the chain's tail (`get_item` leaves `item`
at the tail link when the walk fails).  This is also the entire effect of
the `insert` calls issued by the migration loop of try_rehash, because with
`_rehashing` set the leading `try_rehash()` returns at once and all locking
is skipped. -/
def insertRaw (t : Table K V) (k : K) (v : V) : Table K V :=
  if (findVal (bucketChain t k) k).isSome then
    { t with items := t.items.set (bucketIdx t k) (updateVal (bucketChain t k) k v) }
  else
    { try_add_mutex { t with size := t.size + 1 } with
      items := t.items.set (bucketIdx t k) (bucketChain t k ++ [(k, v)]) }

/-- Concatenation of all bucket chains in slot order: the order in which
the migration loop of try_rehash (lines 309-319) visits the old entries. -/
def joinAll : List (List (K × V)) → List (K × V)
  | [] => []
  | c :: rest => c ++ joinAll rest

/-- The migration loop of try_rehash (lines 309-319): reinsert the listed
entries one by one through the unlocked insert path. -/
def rehashInsertAll (t : Table K V) (es : List (K × V)) : Table K V :=
  es.foldl (fun a e => insertRaw a e.1 e.2) t

/-- The load factor `(float)_size / (float)_capacity` (line 292) as an
exact rational.  `mkRat` is used because it evaluates by kernel reduction;
`loadFactor_eq_div` below shows it is the plain rational division
(both sides make a zero capacity yield 0). -/
def loadFactor (t : Table K V) : ℚ := mkRat t.size t.capacity

/-- `std::lroundf(_capacity * _capacity_step)` (line 303) computed exactly:
writing the step `q` as `q.num / q.den`, we have
`c * q + 1/2 = (2 * c * q.num + q.den) / (2 * q.den)`, and on the
nonnegative arguments arising here lroundf (round to nearest, halves away
from zero) is the floor of that quantity, here an integer division.
`ratRoundMul_eq_round` below identifies it with the rounded rational
product. -/
def ratRoundMul (c : Nat) (q : ℚ) : Nat :=
  (2 * (c : Int) * q.num + (q.den : Int)).toNat / (2 * q.den)

/-- try_rehash (lines 283-325): return unless `_size / _capacity` exceeds
`_max_load_factor`; otherwise set `_size` to zero, install a fresh
null-initialized array of `lroundf(_capacity * _capacity_step)` slots, and
reinsert every old entry in slot order.  The leading `_rehashing` test and
the defer_lock lock are sequentially inert. -/
def try_rehash (t : Table K V) : Table K V :=
  if loadFactor t ≤ t.max_load_factor then t
  else
    rehashInsertAll
      { t with size := 0
               capacity := ratRoundMul t.capacity t.capacity_step
               items := List.replicate (ratRoundMul t.capacity t.capacity_step) [] }
      (joinAll t.items)

/-- insert (lines 136-166): call `try_rehash()` first, then run the shared
body on the resulting table. -/
def insert (t : Table K V) (k : K) (v : V) : Table K V :=
  insertRaw (try_rehash t) k v

/-- erase (lines 170-197): a no-op when get_item fails; otherwise decrement
`_size` by one and apply the unlink sequence, which leaves only the prefix
of the chain strictly before the first matching entry (see `truncFrom`). -/
def erase (t : Table K V) (k : K) : Table K V :=
  if (findVal (bucketChain t k) k).isSome then
    { t with size := t.size - 1
             items := t.items.set (bucketIdx t k) (truncFrom (bucketChain t k) k) }
  else t

/-- The loop of clear (lines 205-212): null slot `i` for every `i < _size`
(note: `_size`, not `_capacity`), counting `i` up from zero.  Deleting the
head node and nulling the slot makes the whole chain unreachable, so the
slot is modelled as emptied. -/
def clearSlots (sz : Nat) : Nat → List (List (K × V)) → List (List (K × V))
  | _, [] => []
  | i, c :: rest => (if i < sz then [] else c) :: clearSlots sz (i + 1) rest

/-- clear (lines 200-215): run the slot loop, then set `_size` to zero. -/
def clear (t : Table K V) : Table K V :=
  { t with items := clearSlots t.size 0 t.items, size := 0 }

/-- Number of entries reachable by walking every bucket chain. -/
def entryCount (t : Table K V) : Nat := (joinAll t.items).length

/-- The keys are pairwise distinct across all chains. -/
def keysUnique (t : Table K V) : Prop := ((joinAll t.items).map Prod.fst).Nodup

/-- Every reachable entry sits in the bucket its key hashes to. -/
def placed (t : Table K V) : Prop :=
  ∀ i < t.items.length, ∀ e ∈ t.items.getD i [], t.hash e.1 % t.capacity = i

/-- Well-formedness: the allocated array has exactly `_capacity` slots, the
capacity is positive, `_size` counts the reachable entries, keys are unique
across chains and every entry is in its home bucket. -/
def WF (t : Table K V) : Prop :=
  t.items.length = t.capacity ∧ 0 < t.capacity ∧ t.size = entryCount t ∧
    keysUnique t ∧ placed t

instance (t : Table K V) : Decidable (keysUnique t) := by
  unfold keysUnique; infer_instance

instance (t : Table K V) : Decidable (placed t) := by
  unfold placed; infer_instance

instance (t : Table K V) : Decidable (WF t) := by
  unfold WF; infer_instance

/-- The table state at the moment a triggering try_rehash call reaches the
allocation `_items = new Item*[_capacity]` (line 304): lines 302-303 have
already executed `_size = 0` and
`_capacity = std::lroundf(_capacity * _capacity_step)`, while `_items`
still refers to the old array. -/
def rehashAtAllocPoint (t : Table K V) : Table K V :=
  if loadFactor t ≤ t.max_load_factor then t
  else
    { t with size := 0
             capacity := ratRoundMul t.capacity t.capacity_step }

/-- `std::hash` of the integral key types used by the repository's tests is
the identity on the key value in the mainstream standard libraries. -/
def idHash : Nat → Nat := fun k => k

/-- A table with the default construction parameters of the source
(capacity 31, max load factor 0.5, capacity step 2.0) and a representative
lock factor of 4. -/
def demo31 : Table Nat Nat := mkTable 31 (mkRat 1 2) 2 4 idHash

/-- `demo31` after insert(1, 10) and insert(32, 20): both keys hash to
bucket 1, so that bucket's chain is [(1, 10), (32, 20)]. -/
def demo31_collide : Table Nat Nat := insert (insert demo31 1 10) 32 20

/-- The table of the rehash scenario in the spec and in Test::test_rehash:
capacity 7, max load factor 0.5, capacity step 2.0. -/
def demo7 : Table Nat Nat := mkTable 7 (mkRat 1 2) 2 4 idHash

/-- `demo7` after inserting keys 0..3 (values 10..13): size 4, capacity
still 7, and load factor 4/7 > 1/2, so the next insert call rehashes. -/
def demo7_4 : Table Nat Nat :=
  insert (insert (insert (insert demo7 0 10) 1 11) 2 12) 3 13

/-! ## Bridge lemmas: the kernel-computable rational forms used in the
definitions agree with the plain rational divisions of the source. -/

theorem loadFactor_eq_div (t : Table K V) :
    loadFactor t = (t.size : ℚ) / (t.capacity : ℚ) := by
  unfold loadFactor
  rw [Rat.mkRat_eq_divInt, Rat.divInt_eq_div]
  push_cast
  rfl

theorem mutexQuota_eq_div (t : Table K V) :
    mutexQuota t = (t.size : ℚ) / t.lock_factor := by
  unfold mutexQuota
  rw [Rat.divInt_eq_div]
  rcases eq_or_ne t.lock_factor 0 with h | h
  · rw [h]
    simp
  · have hn : ((t.lock_factor.num : ℚ)) ≠ 0 := by
      exact_mod_cast Rat.num_ne_zero.mpr h
    have hd : ((t.lock_factor.den : ℚ)) ≠ 0 := by
      exact_mod_cast t.lock_factor.den_nz
    conv_rhs => rw [← Rat.num_div_den t.lock_factor]
    field_simp

theorem ratRoundMul_eq_round (c : Nat) (q : ℚ) (hq : 0 ≤ q) :
    (ratRoundMul c q : ℤ) = ⌊(c : ℚ) * q + 1 / 2⌋ := by
  have hd : ((q.den : ℚ)) ≠ 0 := by exact_mod_cast q.den_nz
  have hnum : 0 ≤ q.num := Rat.num_nonneg.mpr hq
  have hN : (0 : ℤ) ≤ 2 * (c : Int) * q.num + (q.den : Int) := by positivity
  have hqd : q * (q.den : ℚ) = (q.num : ℚ) := by
    nth_rewrite 1 [← Rat.num_div_den q]
    exact div_mul_cancel₀ _ hd
  have hx : (c : ℚ) * q + 1 / 2 =
      ((2 * (c : Int) * q.num + (q.den : Int) : ℤ) : ℚ) / ((2 * q.den : ℕ) : ℚ) := by
    rw [eq_div_iff (by positivity)]
    push_cast
    calc ((c : ℚ) * q + 1 / 2) * (2 * (q.den : ℚ))
        = 2 * (c : ℚ) * (q * (q.den : ℚ)) + (q.den : ℚ) := by ring
      _ = 2 * (c : ℚ) * (q.num : ℚ) + (q.den : ℚ) := by rw [hqd]
  rw [hx, Rat.floor_intCast_div_natCast]
  unfold ratRoundMul
  conv_rhs => rw [← Int.toNat_of_nonneg hN]
  rw [← Int.natCast_div]

/-! ## List access lemmas -/

theorem getD_set_self {α : Type} (l : List α) (i : Nat) (a d : α)
    (h : i < l.length) : (l.set i a).getD i d = a := by
  induction l generalizing i with
  | nil => simp at h
  | cons x xs ih =>
    cases i with
    | zero => rfl
    | succ j => exact ih j (Nat.lt_of_succ_lt_succ h)

theorem getD_set_ne {α : Type} (l : List α) (i j : Nat) (a d : α)
    (h : j ≠ i) : (l.set i a).getD j d = l.getD j d := by
  induction l generalizing i j with
  | nil => rfl
  | cons x xs ih =>
    cases i with
    | zero =>
      cases j with
      | zero => exact absurd rfl h
      | succ j2 => rfl
    | succ i2 =>
      cases j with
      | zero => rfl
      | succ j2 => exact ih i2 j2 (fun hc => h (by rw [hc]))

theorem getD_replicate {α : Type} (n i : Nat) (d : α) :
    (List.replicate n d).getD i d = d := by
  induction n generalizing i with
  | zero => cases i <;> rfl
  | succ m ih =>
    cases i with
    | zero => rfl
    | succ j => exact ih j

/-! ## Chain walk lemmas -/

theorem findVal_eq_none {l : List (K × V)} {k : K}
    (h : k ∉ l.map Prod.fst) : findVal l k = none := by
  induction l with
  | nil => rfl
  | cons e rest ih =>
    rw [List.map_cons] at h
    simp only [List.mem_cons, not_or] at h
    have hne : ¬ e.1 = k := fun he => h.1 he.symm
    simp only [findVal, if_neg hne]
    exact ih h.2

theorem mem_of_findVal_ne_none {l : List (K × V)} {k : K}
    (h : findVal l k ≠ none) : k ∈ l.map Prod.fst := by
  by_contra hmem
  exact h (findVal_eq_none hmem)

theorem findVal_append_some {A : List (K × V)} {k : K} {v : V}
    (h : findVal A k = some v) (B : List (K × V)) :
    findVal (A ++ B) k = some v := by
  induction A with
  | nil => simp [findVal] at h
  | cons e rest ih =>
    by_cases hc : e.1 = k
    · simpa [findVal, hc] using h
    · rw [List.cons_append]
      simp only [findVal, if_neg hc] at h ⊢
      exact ih h

theorem findVal_append_none {A : List (K × V)} {k : K}
    (h : findVal A k = none) (B : List (K × V)) :
    findVal (A ++ B) k = findVal B k := by
  induction A with
  | nil => rfl
  | cons e rest ih =>
    by_cases hc : e.1 = k
    · simp [findVal, hc] at h
    · rw [List.cons_append]
      simp only [findVal, if_neg hc] at h ⊢
      exact ih h

theorem findVal_updateVal {l : List (K × V)} {k : K} (v : V)
    (h : (findVal l k).isSome) :
    findVal (updateVal l k v) k = some v := by
  induction l with
  | nil => simp [findVal] at h
  | cons e rest ih =>
    by_cases hc : e.1 = k
    · simp [findVal, updateVal, hc]
    · simp only [findVal, updateVal, if_neg hc] at h ⊢
      exact ih h

theorem findVal_updateVal_ne {l : List (K × V)} {k k2 : K} (v : V)
    (h : k2 ≠ k) : findVal (updateVal l k v) k2 = findVal l k2 := by
  induction l with
  | nil => rfl
  | cons e rest ih =>
    by_cases hc : e.1 = k
    · have hne : ¬ e.1 = k2 := fun hek => h (by rw [← hek, hc])
      have h2 : ¬ k = k2 := fun hk => h hk.symm
      simp [updateVal, findVal, hc, hne, h2]
    · by_cases hc2 : e.1 = k2
      · simp [updateVal, findVal, hc, hc2, h]
      · simp only [updateVal, findVal, if_neg hc, if_neg hc2]
        exact ih

theorem findVal_append_single_self {l : List (K × V)} {k : K} (v : V)
    (h : findVal l k = none) :
    findVal (l ++ [(k, v)]) k = some v := by
  rw [findVal_append_none h]
  simp [findVal]

theorem findVal_append_single_ne {l : List (K × V)} {k k2 : K} (v : V)
    (h : k2 ≠ k) : findVal (l ++ [(k, v)]) k2 = findVal l k2 := by
  cases hc : findVal l k2 with
  | some w => exact findVal_append_some hc _
  | none =>
    rw [findVal_append_none hc]
    have h2 : ¬ k = k2 := fun hh => h hh.symm
    simp [findVal, h2]

/-! ## Frame lemmas for the table operations -/

theorem try_add_mutex_items (t : Table K V) : (try_add_mutex t).items = t.items := by
  unfold try_add_mutex; split <;> rfl

theorem try_add_mutex_size (t : Table K V) : (try_add_mutex t).size = t.size := by
  unfold try_add_mutex; split <;> rfl

theorem try_add_mutex_capacity (t : Table K V) :
    (try_add_mutex t).capacity = t.capacity := by
  unfold try_add_mutex; split <;> rfl

theorem try_add_mutex_hash (t : Table K V) : (try_add_mutex t).hash = t.hash := by
  unfold try_add_mutex; split <;> rfl

theorem insertRaw_capacity (t : Table K V) (k : K) (v : V) :
    (insertRaw t k v).capacity = t.capacity := by
  unfold insertRaw
  split
  · rfl
  · show (try_add_mutex { t with size := t.size + 1 }).capacity = t.capacity
    rw [try_add_mutex_capacity]

theorem insertRaw_hash (t : Table K V) (k : K) (v : V) :
    (insertRaw t k v).hash = t.hash := by
  unfold insertRaw
  split
  · rfl
  · show (try_add_mutex { t with size := t.size + 1 }).hash = t.hash
    rw [try_add_mutex_hash]

theorem insertRaw_items_length (t : Table K V) (k : K) (v : V) :
    (insertRaw t k v).items.length = t.items.length := by
  unfold insertRaw
  split <;> simp [List.length_set]

theorem insertRaw_size_of_not_found (t : Table K V) (k : K) (v : V)
    (h : tAt t k = none) : (insertRaw t k v).size = t.size + 1 := by
  have h2 : ¬ (findVal (bucketChain t k) k).isSome := by
    rw [show findVal (bucketChain t k) k = tAt t k from rfl, h]
    simp
  unfold insertRaw
  rw [if_neg h2]
  show (try_add_mutex { t with size := t.size + 1 }).size = t.size + 1
  rw [try_add_mutex_size]

theorem insertRaw_size_of_found (t : Table K V) (k : K) (v : V)
    (h : (tAt t k).isSome) : (insertRaw t k v).size = t.size := by
  have h2 : (findVal (bucketChain t k) k).isSome := h
  unfold insertRaw
  rw [if_pos h2]

theorem erase_capacity (t : Table K V) (k : K) :
    (erase t k).capacity = t.capacity := by
  unfold erase; split <;> rfl

theorem clear_capacity (t : Table K V) : (clear t).capacity = t.capacity := rfl

theorem tAt_insertRaw_self (t : Table K V) (k : K) (v : V)
    (hlen : t.items.length = t.capacity) (hcap : 0 < t.capacity) :
    tAt (insertRaw t k v) k = some v := by
  have hidx : bucketIdx t k < t.items.length := by
    rw [hlen]; exact Nat.mod_lt _ hcap
  unfold insertRaw
  by_cases h : (findVal (bucketChain t k) k).isSome
  · rw [if_pos h]
    show findVal
      (((t.items.set (bucketIdx t k) (updateVal (bucketChain t k) k v)).getD
        (t.hash k % t.capacity) [])) k = some v
    rw [show t.hash k % t.capacity = bucketIdx t k from rfl,
      getD_set_self _ _ _ _ hidx]
    exact findVal_updateVal v h
  · rw [if_neg h]
    show findVal
      (((t.items.set (bucketIdx t k) (bucketChain t k ++ [(k, v)])).getD
        ((try_add_mutex { t with size := t.size + 1 }).hash k %
          (try_add_mutex { t with size := t.size + 1 }).capacity) [])) k = some v
    rw [try_add_mutex_hash, try_add_mutex_capacity]
    rw [show ({ t with size := t.size + 1 } : Table K V).hash k %
        ({ t with size := t.size + 1 } : Table K V).capacity = bucketIdx t k from rfl,
      getD_set_self _ _ _ _ hidx]
    exact findVal_append_single_self v (Option.not_isSome_iff_eq_none.mp h)

theorem tAt_insertRaw_ne (t : Table K V) (k k2 : K) (v : V)
    (hlen : t.items.length = t.capacity) (hcap : 0 < t.capacity)
    (hne : k2 ≠ k) : tAt (insertRaw t k v) k2 = tAt t k2 := by
  have hidx : bucketIdx t k < t.items.length := by
    rw [hlen]; exact Nat.mod_lt _ hcap
  unfold insertRaw
  by_cases h : (findVal (bucketChain t k) k).isSome
  · rw [if_pos h]
    show findVal
      (((t.items.set (bucketIdx t k) (updateVal (bucketChain t k) k v)).getD
        (t.hash k2 % t.capacity) [])) k2 = tAt t k2
    by_cases hij : t.hash k2 % t.capacity = bucketIdx t k
    · rw [hij, getD_set_self _ _ _ _ hidx]
      rw [findVal_updateVal_ne v hne]
      show findVal (bucketChain t k) k2 = tAt t k2
      unfold tAt bucketChain bucketIdx
      rw [hij]
      rfl
    · rw [getD_set_ne _ _ _ _ _ hij]
      rfl
  · rw [if_neg h]
    show findVal
      (((t.items.set (bucketIdx t k) (bucketChain t k ++ [(k, v)])).getD
        ((try_add_mutex { t with size := t.size + 1 }).hash k2 %
          (try_add_mutex { t with size := t.size + 1 }).capacity) [])) k2 = tAt t k2
    rw [try_add_mutex_hash, try_add_mutex_capacity]
    show findVal
      (((t.items.set (bucketIdx t k) (bucketChain t k ++ [(k, v)])).getD
        (t.hash k2 % t.capacity) [])) k2 = tAt t k2
    by_cases hij : t.hash k2 % t.capacity = bucketIdx t k
    · rw [hij, getD_set_self _ _ _ _ hidx]
      rw [findVal_append_single_ne v hne]
      show findVal (bucketChain t k) k2 = tAt t k2
      unfold tAt bucketChain bucketIdx
      rw [hij]
      rfl
    · rw [getD_set_ne _ _ _ _ _ hij]
      rfl

/-! ## Migration loop lemmas -/

theorem rehashInsertAll_capacity (es : List (K × V)) :
    ∀ t : Table K V, (rehashInsertAll t es).capacity = t.capacity := by
  induction es with
  | nil => intro t; rfl
  | cons e rest ih =>
    intro t
    show (rehashInsertAll (insertRaw t e.1 e.2) rest).capacity = t.capacity
    rw [ih, insertRaw_capacity]

theorem rehashInsertAll_items_length (es : List (K × V)) :
    ∀ t : Table K V, (rehashInsertAll t es).items.length = t.items.length := by
  induction es with
  | nil => intro t; rfl
  | cons e rest ih =>
    intro t
    show (rehashInsertAll (insertRaw t e.1 e.2) rest).items.length = t.items.length
    rw [ih, insertRaw_items_length]

/-- Inserting a list of entries with pairwise distinct keys, none of them
present, through the unlocked insert path: the size grows by the number of
entries, the inserted keys are afterwards found with their listed values,
and every other key reads as before. -/
theorem rehashInsertAll_spec (es : List (K × V)) :
    ∀ t : Table K V, t.items.length = t.capacity → 0 < t.capacity →
    (es.map Prod.fst).Nodup → (∀ e ∈ es, tAt t e.1 = none) →
    (rehashInsertAll t es).size = t.size + es.length ∧
    (∀ k v, findVal es k = some v → tAt (rehashInsertAll t es) k = some v) ∧
    (∀ k, findVal es k = none → tAt (rehashInsertAll t es) k = tAt t k) := by
  induction es with
  | nil =>
    intro t _ _ _ _
    refine ⟨rfl, ?_, ?_⟩
    · intro k v hv
      simp [findVal] at hv
    · intro k _
      rfl
  | cons e rest ih =>
    intro t hlen hcap hnd habs
    obtain ⟨k0, v0⟩ := e
    have habs0 : tAt t k0 = none := habs (k0, v0) (List.mem_cons_self _ _)
    rw [List.map_cons, List.nodup_cons] at hnd
    have hlen1 : (insertRaw t k0 v0).items.length = (insertRaw t k0 v0).capacity := by
      rw [insertRaw_items_length, insertRaw_capacity, hlen]
    have hcap1 : 0 < (insertRaw t k0 v0).capacity := by
      rw [insertRaw_capacity]; exact hcap
    have habs1 : ∀ e2 ∈ rest, tAt (insertRaw t k0 v0) e2.1 = none := by
      intro e2 he2
      have hmem : e2.1 ∈ rest.map Prod.fst := List.mem_map_of_mem Prod.fst he2
      have hne : e2.1 ≠ k0 := fun hk => hnd.1 (by simpa [hk] using hmem)
      rw [tAt_insertRaw_ne t k0 e2.1 v0 hlen hcap hne]
      exact habs e2 (List.mem_cons_of_mem _ he2)
    obtain ⟨ihsz, ihsome, ihnone⟩ := ih (insertRaw t k0 v0) hlen1 hcap1 hnd.2 habs1
    have hstep : rehashInsertAll t ((k0, v0) :: rest) =
        rehashInsertAll (insertRaw t k0 v0) rest := rfl
    refine ⟨?_, ?_, ?_⟩
    · rw [hstep, ihsz, insertRaw_size_of_not_found t k0 v0 habs0, List.length_cons]
      omega
    · intro k v hfv
      rw [hstep]
      by_cases hk : k0 = k
      · subst hk
        simp [findVal] at hfv
        have hnone : findVal rest k0 = none := findVal_eq_none (by simpa using hnd.1)
        rw [ihnone k0 hnone, tAt_insertRaw_self t k0 v0 hlen hcap, hfv]
      · have hr : findVal rest k = some v := by
          simpa [findVal, hk] using hfv
        exact ihsome k v hr
    · intro k hfv
      rw [hstep]
      by_cases hk : k0 = k
      · subst hk
        simp [findVal] at hfv
      · have hr : findVal rest k = none := by
          simpa [findVal, hk] using hfv
        rw [ihnone k hr,
          tAt_insertRaw_ne t k0 k v0 hlen hcap (fun hc => hk hc.symm)]

/-! ## Reading the concatenation of all chains -/

theorem findVal_joinAll_none (ls : List (List (K × V))) (k : K) :
    (∀ i < ls.length, findVal (ls.getD i []) k = none) →
    findVal (joinAll ls) k = none := by
  induction ls with
  | nil => intro _; rfl
  | cons c rest ih =>
    intro h
    show findVal (c ++ joinAll rest) k = none
    have h0 : findVal c k = none := h 0 (Nat.succ_pos _)
    rw [findVal_append_none h0]
    exact ih (fun i hi => h (i + 1) (Nat.succ_lt_succ hi))

theorem findVal_joinAll_bucket (ls : List (List (K × V))) (k : K) :
    ∀ j, j < ls.length →
    (∀ i < ls.length, i ≠ j → findVal (ls.getD i []) k = none) →
    findVal (joinAll ls) k = findVal (ls.getD j []) k := by
  induction ls with
  | nil =>
    intro j hj _
    exact absurd hj (Nat.not_lt_zero j)
  | cons c rest ih =>
    intro j hj hother
    cases j with
    | zero =>
      show findVal (c ++ joinAll rest) k = findVal c k
      have hrest : findVal (joinAll rest) k = none := by
        apply findVal_joinAll_none
        intro i hi
        exact hother (i + 1) (Nat.succ_lt_succ hi) (Nat.succ_ne_zero i)
      cases hc : findVal c k with
      | some v => exact findVal_append_some hc _
      | none => rw [findVal_append_none hc, hrest]
    | succ j2 =>
      show findVal (c ++ joinAll rest) k = findVal (rest.getD j2 []) k
      have hc : findVal c k = none :=
        hother 0 (Nat.succ_pos _) (Nat.succ_ne_zero j2).symm
      rw [findVal_append_none hc]
      exact ih j2 (Nat.lt_of_succ_lt_succ hj)
        (fun i hi hne =>
          hother (i + 1) (Nat.succ_lt_succ hi) (fun hcon => hne (Nat.succ.inj hcon)))

/-- In a table whose entries all sit in their home buckets, walking the
concatenation of all chains finds exactly what the bucketed lookup finds. -/
theorem findVal_joinAll_eq_tAt (t : Table K V) (k : K)
    (hlen : t.items.length = t.capacity) (hcap : 0 < t.capacity)
    (hp : placed t) : findVal (joinAll t.items) k = tAt t k := by
  have hidx : bucketIdx t k < t.items.length := by
    rw [hlen]; exact Nat.mod_lt _ hcap
  unfold tAt bucketChain
  apply findVal_joinAll_bucket t.items k (bucketIdx t k) hidx
  intro i hi hne
  apply findVal_eq_none
  intro hmem
  obtain ⟨e, he, hek⟩ := List.mem_map.mp hmem
  have hp2 := hp i hi e he
  rw [hek] at hp2
  exact hne hp2.symm

/-! ## try_rehash lemmas -/

theorem try_rehash_len (t : Table K V) (hlen : t.items.length = t.capacity) :
    (try_rehash t).items.length = (try_rehash t).capacity := by
  unfold try_rehash
  split
  · exact hlen
  · rw [rehashInsertAll_items_length, rehashInsertAll_capacity]
    simp

theorem try_rehash_cap_pos (t : Table K V) (hcap : 0 < t.capacity)
    (hstep : ¬ loadFactor t ≤ t.max_load_factor →
      0 < ratRoundMul t.capacity t.capacity_step) :
    0 < (try_rehash t).capacity := by
  unfold try_rehash
  split
  · exact hcap
  · next h =>
    rw [rehashInsertAll_capacity]
    exact hstep h

/-! ## Claim theorems -/

/-- Claim C1.  The claimed invariant — after every single-threaded sequence
of insert, erase and clear operations, `size()` equals the number of
entries reachable by walking all bucket chains — fails on the code: on a
fresh default table, insert(5, 100) followed by clear() leaves `size() = 0`
while one entry (key 5, in bucket 5) is still reachable, because clear
scans only the first `_size = 1` slots of the bucket array.  (The erase
unlink bug exhibited for claim C2 breaks the same invariant from the other
side.)  The key-uniqueness half is not at issue in this run: the violation
is in the size count. -/
theorem C1_size_reachable_mismatch :
    (clear (insert demo31 5 100)).size = 0 ∧
    entryCount (clear (insert demo31 5 100)) = 1 ∧
    tAt (clear (insert demo31 5 100)) 5 = some 100 := by decide

/-- Claim C2.  The claim — erase(k) removes exactly the entry with key k
and leaves every other key present with its value unchanged — fails on the
code: with keys 1 and 32 sharing bucket 1 of a default table, erase(1)
unlinks the whole chain, so key 32 (inserted with value 20 and never
erased) is gone afterwards, while `size` is decremented only by one.  The
source intends single-entry removal (comment "delete item from chain",
`_size--`), but `item` aliases the predecessor link, so the unlink
sequence truncates the chain at the first match. -/
theorem C2_erase_drops_chain_successors :
    tAt demo31_collide 1 = some 10 ∧
    tAt demo31_collide 32 = some 20 ∧
    demo31_collide.size = 2 ∧
    tAt (erase demo31_collide 1) 32 = none ∧
    (erase demo31_collide 1).size = 1 := by decide

/-- Claim C3.  The claim — clear() destroys every entry across all
`capacity` slots, so that afterwards no key is contained — fails on the
code: clear's loop runs for `i < _size`, not `i < _capacity`
(src/ConcurrentHashTable.h line 205), so after insert(5, 100) on a fresh
default table (size 1, entry in bucket 5) a clear() empties only bucket 0;
`size()` does become 0 and `capacity()` is unchanged, but key 5 is still
contained. -/
theorem C3_clear_scans_only_size_slots :
    (clear (insert demo31 5 100)).size = 0 ∧
    (clear (insert demo31 5 100)).capacity = 31 ∧
    contains (clear (insert demo31 5 100)) 5 = true := by decide

/-- Claim C4.  When an insert's leading try_rehash call fires (the load
factor `_size / _capacity` exceeds `_max_load_factor`), the rehash rebuilds
the table in a fresh array: for any well-formed table it preserves every
lookup (each previously live key is still retrievable with its last-set
value, absent keys stay absent), leaves `size()` unchanged and sets
`capacity()` to `lroundf(old capacity * capacity step)`.  The concrete
capacity-7 scenario of the claim is checked in the witness. -/
theorem C4_rehash_preserves_content (t : Table K V) (hWF : WF t)
    (htrig : ¬ loadFactor t ≤ t.max_load_factor)
    (hpos : 0 < ratRoundMul t.capacity t.capacity_step) :
    (try_rehash t).size = t.size ∧
    (try_rehash t).capacity = ratRoundMul t.capacity t.capacity_step ∧
    ∀ k, tAt (try_rehash t) k = tAt t k := by
  unfold WF at hWF
  obtain ⟨hlen, hcap, hsz, hnd, hp⟩ := hWF
  unfold keysUnique at hnd
  have hre : try_rehash t =
      rehashInsertAll
        { t with size := 0
                 capacity := ratRoundMul t.capacity t.capacity_step
                 items := List.replicate (ratRoundMul t.capacity t.capacity_step) [] }
        (joinAll t.items) := by
    unfold try_rehash
    rw [if_neg htrig]
  have hlenE : (List.replicate (ratRoundMul t.capacity t.capacity_step)
      ([] : List (K × V))).length = ratRoundMul t.capacity t.capacity_step := by
    simp
  have habsE : ∀ e ∈ joinAll t.items,
      tAt ({ t with size := 0
                    capacity := ratRoundMul t.capacity t.capacity_step
                    items := List.replicate (ratRoundMul t.capacity t.capacity_step) [] }
        : Table K V) e.1 = none := by
    intro e _
    unfold tAt bucketChain
    show findVal ((List.replicate (ratRoundMul t.capacity t.capacity_step) []).getD _ []) e.1
      = none
    rw [getD_replicate]
    rfl
  obtain ⟨hsz2, hsome, hnone⟩ :=
    rehashInsertAll_spec (joinAll t.items)
      { t with size := 0
               capacity := ratRoundMul t.capacity t.capacity_step
               items := List.replicate (ratRoundMul t.capacity t.capacity_step) [] }
      hlenE hpos hnd habsE
  have hjoin : ∀ k, findVal (joinAll t.items) k = tAt t k :=
    fun k => findVal_joinAll_eq_tAt t k hlen hcap hp
  refine ⟨?_, ?_, ?_⟩
  · rw [hre, hsz2]
    show 0 + (joinAll t.items).length = t.size
    rw [hsz]
    unfold entryCount
    omega
  · rw [hre, rehashInsertAll_capacity]
  · intro k
    rw [hre]
    cases hres : tAt t k with
    | some v =>
      exact hsome k v (by rw [hjoin k, hres])
    | none =>
      rw [hnone k (by rw [hjoin k, hres])]
      unfold tAt bucketChain
      show findVal ((List.replicate (ratRoundMul t.capacity t.capacity_step) []).getD _ []) k
        = none
      rw [getD_replicate]
      rfl

/-- Witness for claim C4's theorem, instantiating it at the claim's own
scenario: a table constructed with capacity 7 and max load factor 0.5
holding keys 0..3, whose next insert (key 4) triggers the rehash.  The
rehash itself keeps size 4 and all four lookups while growing the capacity
to round(7 * 2.0) = 14; completing the insert of key 4 gives
capacity() = 14, size() = 5 and at(i) = the inserted value for i = 0..4. -/
theorem C4_rehash_preserves_content_witness :
    WF demo7_4 ∧
    (try_rehash demo7_4).size = 4 ∧
    (try_rehash demo7_4).capacity = 14 ∧
    (∀ k, tAt (try_rehash demo7_4) k = tAt demo7_4 k) ∧
    (insert demo7_4 4 14).capacity = 14 ∧
    (insert demo7_4 4 14).size = 5 ∧
    tAt (insert demo7_4 4 14) 0 = some 10 ∧
    tAt (insert demo7_4 4 14) 1 = some 11 ∧
    tAt (insert demo7_4 4 14) 2 = some 12 ∧
    tAt (insert demo7_4 4 14) 3 = some 13 ∧
    tAt (insert demo7_4 4 14) 4 = some 14 := by
  have h := C4_rehash_preserves_content demo7_4 (by decide) (by decide) (by decide)
  exact ⟨by decide, h.1.trans (by decide), h.2.1.trans (by decide), h.2.2,
    by decide, by decide, by decide, by decide, by decide, by decide, by decide⟩

/-- Claim C5, counterexample.  The claim states that during a resize the
new bucket array is allocated before any existing table state is mutated,
so that on allocation failure the table would be completely unchanged (old
size and old capacity intact).  In the source the opposite order holds:
try_rehash executes `_size = 0` and `_capacity = lroundf(...)` (lines
302-303) before `_items = new Item*[_capacity]` (line 304).  On the
concrete triggering table `demo7_4` (size 4, capacity 7), the table state
at the allocation point already has size 0 and capacity 14. -/
theorem C5_state_mutated_before_alloc :
    demo7_4.size = 4 ∧ demo7_4.capacity = 7 ∧
    (rehashAtAllocPoint demo7_4).size = 0 ∧
    (rehashAtAllocPoint demo7_4).capacity = 14 ∧
    rehashAtAllocPoint demo7_4 ≠ demo7_4 :=
  ⟨by decide, by decide, by decide, by decide,
    fun h => absurd (congrArg Table.size h) (by decide)⟩

/-- Claim C5, amended.  On a triggering call, at the moment try_rehash
reaches the allocation of the new bucket array, `_size` has already been
reset to 0 and `_capacity` already holds the grown value (which is the
final capacity of the completed rehash); only `_items` still refers to the
old array.  A failing allocation would therefore leave the table with the
new capacity, zero size and the old array — not unchanged.  (Moreover
insert and try_rehash are `noexcept`, so a throwing `new` would terminate
the process; no recoverable AllocationFailure exists in the code.) -/
theorem C5_alloc_point_state (t : Table K V)
    (htrig : ¬ loadFactor t ≤ t.max_load_factor) :
    (rehashAtAllocPoint t).size = 0 ∧
    (rehashAtAllocPoint t).capacity = ratRoundMul t.capacity t.capacity_step ∧
    (rehashAtAllocPoint t).items = t.items ∧
    (rehashAtAllocPoint t).capacity = (try_rehash t).capacity := by
  unfold rehashAtAllocPoint try_rehash
  rw [if_neg htrig, if_neg htrig]
  refine ⟨rfl, rfl, rfl, ?_⟩
  rw [rehashInsertAll_capacity]

/-- Witness for the amended claim C5, at the triggering table `demo7_4`. -/
theorem C5_alloc_point_state_witness :
    (rehashAtAllocPoint demo7_4).items = demo7_4.items ∧
    (rehashAtAllocPoint demo7_4).capacity = (try_rehash demo7_4).capacity :=
  ⟨(C5_alloc_point_state demo7_4 (by decide)).2.2.1,
    (C5_alloc_point_state demo7_4 (by decide)).2.2.2⟩

/-- Claim C6.  The claim — after any single-threaded insert/erase sequence
from a fresh table, `size()` equals the number of distinct keys whose last
operation was an insert — fails on the code, as a knock-on effect of the
erase unlink bug: after insert(1, 10), insert(32, 20), erase(1), erase(32)
on a fresh default table, no key has a net-live insert, yet `size() = 1`;
erase(1) silently unlinked key 32 as well, so the later erase(32) found
nothing and did not decrement. -/
theorem C6_size_differs_from_net_live :
    (erase (erase demo31_collide 1) 32).size = 1 ∧
    entryCount (erase (erase demo31_collide 1) 32) = 0 := by decide

/-- Claim C7.  Upsert round trip: on any table whose bucket array has its
`capacity` many slots, with positive capacity (and, should this insert
trigger a rehash, a positive grown capacity), insert(k, v) followed by
at(k) returns v — whether or not k was present, and whatever else the
table holds. -/
theorem C7_insert_at_roundtrip (t : Table K V) (k : K) (v : V)
    (hlen : t.items.length = t.capacity) (hcap : 0 < t.capacity)
    (hstep : ¬ loadFactor t ≤ t.max_load_factor →
      0 < ratRoundMul t.capacity t.capacity_step) :
    tAt (insert t k v) k = some v := by
  unfold insert
  exact tAt_insertRaw_self _ k v (try_rehash_len t hlen)
    (try_rehash_cap_pos t hcap hstep)

/-- Witness for claim C7's theorem at a rehash-triggering input: inserting
key 4 into `demo7_4` rehashes first and still reads back value 14. -/
theorem C7_insert_at_roundtrip_witness :
    demo7_4.items.length = demo7_4.capacity ∧ 0 < demo7_4.capacity ∧
    tAt (insert demo7_4 4 14) 4 = some 14 :=
  ⟨by decide, by decide,
    C7_insert_at_roundtrip demo7_4 4 14 (by decide) (by decide) (by decide)⟩

/-- Claim C8.  `contains(k)` is true exactly when `at(k)` does not fail
with KeyNotFound: in the source both run the same get_item chain walk, and
in the embedding `contains` is precisely the is-some test of `tAt`.  In
particular, on a freshly constructed table of any parameters every chain is
empty, so `at` fails (returns `none`) for every key. -/
theorem C8_contains_iff_at :
    (∀ (t : Table K V) (k : K), contains t k = (tAt t k).isSome) ∧
    (∀ (cap : Nat) (mlf cs lf : ℚ) (hf : K → Nat) (k : K),
      tAt (mkTable cap mlf cs lf hf : Table K V) k = none) := by
  constructor
  · intro t k
    rfl
  · intro cap mlf cs lf hf k
    unfold tAt bucketChain mkTable
    show findVal ((List.replicate cap []).getD _ []) k = none
    rw [getD_replicate]
    rfl

/-- Claim C10.  Resizing happens only at the start of an insert call, and
the trigger reads the load factor before the new entry is counted: on the
capacity-7, max-load-factor-1/2 table, after the fourth insert returns the
load factor 4/7 already exceeds 1/2, yet the capacity is still 7 — the
rehash only runs at the start of the next insert (after which the capacity
is 14).  No other operation resizes: `insert` is definitionally
try_rehash followed by the raw insert body, while erase and clear preserve
the capacity for every table (and the read-only operations return values
without touching the state), so an exceeded load factor persists until the
next insert call. -/
theorem C10_resize_only_at_insert_start :
    demo7_4.max_load_factor < loadFactor demo7_4 ∧
    demo7_4.capacity = 7 ∧ demo7_4.size = 4 ∧
    (insert demo7_4 4 14).capacity = 14 ∧
    (∀ (A B : Type) [DecidableEq A] (t : Table A B) (k : A) (v : B),
      insert t k v = insertRaw (try_rehash t) k v) ∧
    (∀ (A B : Type) [DecidableEq A] (t : Table A B) (k : A),
      (erase t k).capacity = t.capacity) ∧
    (∀ (A B : Type) [DecidableEq A] (t : Table A B),
      (clear t).capacity = t.capacity) := by
  refine ⟨by decide, by decide, by decide, by decide, ?_, ?_, ?_⟩
  · intro A B inst t k v
    rfl
  · intro A B inst t k
    exact erase_capacity t k
  · intro A B inst t
    exact clear_capacity t

end CHT
